import Mathlib

/-!
Verification development for the qMusic repository.

The repository contains three Python scripts that draw random integers from a
simulated quantum circuit and map them to timed note events which are sent to
Ableton Live over OSC:

* `Quantum Music/qumusic_generate.py` — fixed-count melody generator
  (`generate_melody`, `get_quantum_indices`, `AbletonOSCClient.add_notes`);
* `Quantum Music/qumusic_generate_chords.py` — variable-duration generator
  (`get_quantum_random_numbers`, `generate_and_sync`);
* `qmusic_generate_chords_Multitrack.py` — fixed-slot-count generator with
  randomized durations (`get_quantum_random_numbers`, `generate_and_sync`).

The embedding below models the quantum measurement backend as an explicit
value stream `s : ℕ → ℕ` (the n-th measured bitstring, as an integer), Python
floats as exact rationals (all constants in the sources are dyadic, so float
arithmetic on them is exact), Python list indexing as `List.get?` (so an
`IndexError` surfaces as `none`), and the unbounded `while` loop of the
rejection sampler with an explicit batch-count fuel (`none` = the fuel ran
out before the loop finished).
-/

namespace QMusic

/-- A note event as stored in `notes_for_osc` by all three scripts:
`(pitch, start_time_beats, duration_beats, velocity)`. -/
structure Note where
  pitch : ℤ
  start : ℚ
  duration : ℚ
  velocity : ℕ
deriving DecidableEq, Repr

/-- Sum of the durations of a list of note events. -/
def sumDur (notes : List Note) : ℚ :=
  (notes.map Note.duration).sum

@[simp] theorem sumDur_nil : sumDur [] = 0 := rfl

@[simp] theorem sumDur_cons (nt : Note) (l : List Note) :
    sumDur (nt :: l) = nt.duration + sumDur l := by
  simp [sumDur]

namespace QRand

/-- `num_qubits = math.ceil(math.log2(max_value))` from
`get_quantum_random_numbers` (both files), as an exact ceiling of the base-2
logarithm. -/
def num_qubits (max_value : ℤ) : ℕ :=
  if max_value ≤ 1 then 0 else ((max_value - 1).toNat).log2 + 1

/-- The inner `for bitstring in memory` loop of `get_quantum_random_numbers`:
append each measured value that is `< max_value` to `generated_numbers`,
breaking out as soon as `count` values have been accepted. -/
def innerLoop (count : ℕ) (max_value : ℤ) : List ℕ → List ℕ → List ℕ
  | [], gen => gen
  | v :: rest, gen =>
    if (v : ℤ) < max_value then
      if gen.length + 1 = count then gen ++ [v]
      else innerLoop count max_value rest (gen ++ [v])
    else innerLoop count max_value rest gen

/-- The batch of measurement results returned by one `sim.run` call with
`shots = batch`, reading the backend stream `s` from position `pos`. -/
def batchMem (s : ℕ → ℕ) (pos batch : ℕ) : List ℕ :=
  (List.range batch).map (fun j => s (pos + j))

/-- The `while len(generated_numbers) < count` loop of
`get_quantum_random_numbers`.  Each iteration draws
`batch_size = (count - len(generated)) * 2` shots from the backend and keeps
the in-range ones.  `fuel` bounds the number of batch iterations; `pos` is the
total number of shots consumed so far.  Returns `(generated, shots_consumed)`,
or `none` if the fuel ran out before the loop condition failed. -/
def outerLoop (count : ℕ) (max_value : ℤ) (s : ℕ → ℕ) :
    ℕ → List ℕ → ℕ → Option (List ℕ × ℕ)
  | 0, gen, pos =>
    if count ≤ gen.length then some (gen, pos) else none
  | fuel + 1, gen, pos =>
    if count ≤ gen.length then some (gen, pos)
    else
      outerLoop count max_value s fuel
        (innerLoop count max_value (batchMem s pos ((count - gen.length) * 2)) gen)
        (pos + (count - gen.length) * 2)

/-- `get_quantum_random_numbers(count, max_value)` from
`qumusic_generate_chords.py` (lines 68-103) and
`qmusic_generate_chords_Multitrack.py` (lines 74-107), which are identical.
The backend is the stream `s`; the second component of the result is the
number of shots drawn from the backend (0 = the circuit was never run). -/
def get_quantum_random_numbers (fuel : ℕ) (count : ℕ) (max_value : ℤ)
    (s : ℕ → ℕ) : Option (List ℕ × ℕ) :=
  if max_value ≤ 0 then some ([], 0)
  else if max_value = 1 then some (List.replicate count 0, 0)
  else outerLoop count max_value s fuel [] 0

example : get_quantum_random_numbers 5 3 4 (fun n => n) = some ([0, 1, 2], 6) := by
  decide

example : get_quantum_random_numbers 5 3 3 (fun n => n % 4) = some ([0, 1, 2], 6) := by
  decide

example : get_quantum_random_numbers 0 5 0 (fun _ => 0) = some ([], 0) := by
  decide

theorem innerLoop_length_le (count : ℕ) (mv : ℤ) :
    ∀ mem gen, gen.length ≤ (innerLoop count mv mem gen).length := by
  intro mem
  induction mem with
  | nil => intro gen; simp [innerLoop]
  | cons v rest ih =>
    intro gen
    simp only [innerLoop]
    by_cases h1 : (v : ℤ) < mv
    · rw [if_pos h1]
      by_cases h2 : gen.length + 1 = count
      · rw [if_pos h2]; simp
      · rw [if_neg h2]
        have h3 := ih (gen ++ [v])
        have h4 : (gen ++ [v]).length = gen.length + 1 := by simp
        omega
    · rw [if_neg h1]; exact ih gen

theorem innerLoop_length_le_count (count : ℕ) (mv : ℤ) :
    ∀ mem gen, gen.length < count → (innerLoop count mv mem gen).length ≤ count := by
  intro mem
  induction mem with
  | nil => intro gen h; simpa [innerLoop] using le_of_lt h
  | cons v rest ih =>
    intro gen h
    simp only [innerLoop]
    by_cases h1 : (v : ℤ) < mv
    · rw [if_pos h1]
      by_cases h2 : gen.length + 1 = count
      · rw [if_pos h2]; simp; omega
      · rw [if_neg h2]; exact ih (gen ++ [v]) (by simp; omega)
    · rw [if_neg h1]; exact ih gen h

theorem innerLoop_mem (count : ℕ) (mv : ℤ) :
    ∀ mem gen x, x ∈ innerLoop count mv mem gen → x ∈ gen ∨ (x : ℤ) < mv := by
  intro mem
  induction mem with
  | nil => intro gen x hx; exact Or.inl (by simpa [innerLoop] using hx)
  | cons v rest ih =>
    intro gen x hx
    simp only [innerLoop] at hx
    by_cases h1 : (v : ℤ) < mv
    · rw [if_pos h1] at hx
      by_cases h2 : gen.length + 1 = count
      · rw [if_pos h2] at hx
        rcases List.mem_append.mp hx with h | h
        · exact Or.inl h
        · simp only [List.mem_singleton] at h; subst h; exact Or.inr h1
      · rw [if_neg h2] at hx
        rcases ih (gen ++ [v]) x hx with h | h
        · rcases List.mem_append.mp h with h3 | h3
          · exact Or.inl h3
          · simp only [List.mem_singleton] at h3; subst h3; exact Or.inr h1
        · exact Or.inr h
    · rw [if_neg h1] at hx
      exact ih gen x hx

theorem innerLoop_progress (count : ℕ) (mv : ℤ) :
    ∀ mem gen, gen.length < count → (∃ v : ℕ, v ∈ mem ∧ (v : ℤ) < mv) →
      gen.length < (innerLoop count mv mem gen).length := by
  intro mem
  induction mem with
  | nil =>
    rintro gen h ⟨v, hv, hlt⟩
    simp at hv
  | cons u rest ih =>
    rintro gen h ⟨v, hv, hvlt⟩
    simp only [innerLoop]
    by_cases h1 : (u : ℤ) < mv
    · rw [if_pos h1]
      by_cases h2 : gen.length + 1 = count
      · rw [if_pos h2]; simp
      · rw [if_neg h2]
        have h3 := innerLoop_length_le count mv rest (gen ++ [u])
        have h4 : (gen ++ [u]).length = gen.length + 1 := by simp
        omega
    · rw [if_neg h1]
      rcases List.mem_cons.mp hv with rfl | hv2
      · exact absurd hvlt h1
      · exact ih gen h ⟨v, hv2, hvlt⟩

theorem outerLoop_done (count : ℕ) (mv : ℤ) (s : ℕ → ℕ) (fuel : ℕ)
    (gen : List ℕ) (pos : ℕ) (h : count ≤ gen.length) :
    outerLoop count mv s fuel gen pos = some (gen, pos) := by
  cases fuel <;> simp [outerLoop, h]

theorem outerLoop_step (count : ℕ) (mv : ℤ) (s : ℕ → ℕ) (fuel : ℕ)
    (gen : List ℕ) (pos : ℕ) (h : gen.length < count) :
    outerLoop count mv s (fuel + 1) gen pos
      = outerLoop count mv s fuel
          (innerLoop count mv (batchMem s pos ((count - gen.length) * 2)) gen)
          (pos + (count - gen.length) * 2) := by
  simp only [outerLoop]
  rw [if_neg (by omega)]

theorem outerLoop_spec (count : ℕ) (mv : ℤ) (s : ℕ → ℕ)
    (hs : ∀ k, ∃ n, k ≤ n ∧ (s n : ℤ) < mv) :
    ∀ d gen pos, count - gen.length ≤ d → gen.length ≤ count →
      (∀ x : ℕ, x ∈ gen → (x : ℤ) < mv) →
      ∃ fuel res, outerLoop count mv s fuel gen pos = some res ∧
        res.1.length = count ∧ ∀ x : ℕ, x ∈ res.1 → (x : ℤ) < mv := by
  intro d
  induction d using Nat.strong_induction_on with
  | _ d ihd =>
    intro gen pos hdef hle hmemg
    by_cases hfull : count ≤ gen.length
    · exact ⟨0, (gen, pos), outerLoop_done count mv s 0 gen pos hfull,
        le_antisymm hle hfull, hmemg⟩
    · push_neg at hfull
      have key : ∀ N pos gen, gen.length < count → count - gen.length ≤ d →
          (∀ x : ℕ, x ∈ gen → (x : ℤ) < mv) →
          (∃ n, n < N ∧ (s (pos + n) : ℤ) < mv) →
          ∃ fuel res, outerLoop count mv s fuel gen pos = some res ∧
            res.1.length = count ∧ ∀ x : ℕ, x ∈ res.1 → (x : ℤ) < mv := by
        intro N
        induction N using Nat.strong_induction_on with
        | _ N ihN =>
          rintro pos gen hlt hdd hmg ⟨n, hnN, hnin⟩
          obtain ⟨gen1, hgen1⟩ :
              ∃ g, innerLoop count mv (batchMem s pos ((count - gen.length) * 2)) gen = g :=
            ⟨_, rfl⟩
          have hb2 : 2 ≤ (count - gen.length) * 2 := by omega
          have hmono : gen.length ≤ gen1.length :=
            hgen1 ▸ innerLoop_length_le count mv _ gen
          have hup : gen1.length ≤ count :=
            hgen1 ▸ innerLoop_length_le_count count mv _ gen hlt
          have hmem1 : ∀ x : ℕ, x ∈ gen1 → (x : ℤ) < mv := by
            intro x hx
            rw [← hgen1] at hx
            rcases innerLoop_mem count mv _ _ x hx with h | h
            · exact hmg x h
            · exact h
          have hstep : ∀ fuel, outerLoop count mv s (fuel + 1) gen pos
              = outerLoop count mv s fuel gen1 (pos + (count - gen.length) * 2) := by
            intro fuel
            rw [outerLoop_step count mv s fuel gen pos hlt, hgen1]
          by_cases hgrow : gen.length < gen1.length
          · by_cases hfull1 : count ≤ gen1.length
            · refine ⟨1, (gen1, pos + (count - gen.length) * 2), ?_,
                le_antisymm hup hfull1, hmem1⟩
              rw [hstep 0]
              exact outerLoop_done count mv s 0 gen1 _ hfull1
            · push_neg at hfull1
              have hd2 : count - gen1.length < d := by omega
              obtain ⟨fuel, res, hres, hrlen, hrm⟩ :=
                ihd (count - gen1.length) hd2 gen1 (pos + (count - gen.length) * 2)
                  le_rfl (le_of_lt hfull1) hmem1
              exact ⟨fuel + 1, res, by rw [hstep fuel]; exact hres, hrlen, hrm⟩
          · push_neg at hgrow
            have hnb : (count - gen.length) * 2 ≤ n := by
              by_contra hnb
              push_neg at hnb
              have hv : s (pos + n) ∈ batchMem s pos ((count - gen.length) * 2) := by
                simp only [batchMem, List.mem_map, List.mem_range]
                exact ⟨n, hnb, rfl⟩
              have hpr := innerLoop_progress count mv
                (batchMem s pos ((count - gen.length) * 2)) gen hlt
                ⟨s (pos + n), hv, hnin⟩
              rw [hgen1] at hpr
              omega
            have hNb : N - (count - gen.length) * 2 < N := by omega
            obtain ⟨fuel, res, hres, hrlen, hrm⟩ :=
              ihN (N - (count - gen.length) * 2) hNb (pos + (count - gen.length) * 2) gen1
                (by omega) (by omega) hmem1
                ⟨n - (count - gen.length) * 2, by omega,
                  by rw [show pos + (count - gen.length) * 2 + (n - (count - gen.length) * 2)
                        = pos + n by omega]
                     exact hnin⟩
            exact ⟨fuel + 1, res, by rw [hstep fuel]; exact hres, hrlen, hrm⟩
      obtain ⟨n0, hn0pos, hn0⟩ := hs pos
      exact key (n0 - pos + 1) pos gen hfull hdef hmemg
        ⟨n0 - pos, by omega, by rw [show pos + (n0 - pos) = n0 by omega]; exact hn0⟩

theorem outerLoop_sound (count : ℕ) (mv : ℤ) (s : ℕ → ℕ) :
    ∀ (fuel : ℕ) (gen : List ℕ) (pos : ℕ) (res : List ℕ × ℕ),
      (∀ x : ℕ, x ∈ gen → (x : ℤ) < mv) → gen.length ≤ count →
      outerLoop count mv s fuel gen pos = some res →
      res.1.length = count ∧ ∀ x : ℕ, x ∈ res.1 → (x : ℤ) < mv := by
  intro fuel
  induction fuel with
  | zero =>
    intro gen pos res hmem hle hrun
    simp only [outerLoop] at hrun
    by_cases h : count ≤ gen.length
    · rw [if_pos h] at hrun
      obtain rfl : (gen, pos) = res := Option.some.inj hrun
      exact ⟨le_antisymm hle h, hmem⟩
    · rw [if_neg h] at hrun
      exact Option.noConfusion hrun
  | succ fuel ih =>
    intro gen pos res hmem hle hrun
    simp only [outerLoop] at hrun
    by_cases h : count ≤ gen.length
    · rw [if_pos h] at hrun
      obtain rfl : (gen, pos) = res := Option.some.inj hrun
      exact ⟨le_antisymm hle h, hmem⟩
    · rw [if_neg h] at hrun
      push_neg at h
      refine ih _ _ res ?_ ?_ hrun
      · intro x hx
        rcases innerLoop_mem count mv _ _ x hx with h2 | h2
        · exact hmem x h2
        · exact h2
      · exact innerLoop_length_le_count count mv _ gen h

/-- C1: for every `count ≥ 0` and `max_value ≥ 1`, and every stream of
width-bit integers the backend may produce: the while loop terminates for
some number of batch iterations (provided the backend eventually yields
in-range draws from every position), the terminating run returns an ordered
sequence of exactly `count` integers, each in `[0, max_value)`; moreover
every run that returns at all returns exactly `count` integers all in
`[0, max_value)` — a value `≥ max_value` is never included. -/
theorem c1_sampler_in_range_terminates (count : ℕ) (mv : ℤ) (s : ℕ → ℕ)
    (hmv : 1 ≤ mv)
    (hw : ∀ n, s n < 2 ^ num_qubits mv)
    (hs : ∀ k, ∃ n, k ≤ n ∧ (s n : ℤ) < mv) :
    (∃ fuel l used, get_quantum_random_numbers fuel count mv s = some (l, used) ∧
      l.length = count ∧ ∀ x : ℕ, x ∈ l → 0 ≤ (x : ℤ) ∧ (x : ℤ) < mv) ∧
    (∀ fuel l used, get_quantum_random_numbers fuel count mv s = some (l, used) →
      l.length = count ∧ ∀ x : ℕ, x ∈ l → 0 ≤ (x : ℤ) ∧ (x : ℤ) < mv) := by
  by_cases h1 : mv = 1
  · subst h1
    have hval : ∀ fuel : ℕ, get_quantum_random_numbers fuel count 1 s
        = some (List.replicate count 0, 0) := by
      intro fuel
      simp [get_quantum_random_numbers]
    have hprop : ∀ x : ℕ, x ∈ List.replicate count (0 : ℕ) →
        0 ≤ (x : ℤ) ∧ (x : ℤ) < 1 := by
      intro x hx
      have hx0 : x = 0 := List.eq_of_mem_replicate hx
      subst hx0
      exact ⟨le_rfl, by norm_num⟩
    refine ⟨⟨0, List.replicate count 0, 0, hval 0, by simp, hprop⟩, ?_⟩
    intro fuel l used hrun
    rw [hval fuel] at hrun
    obtain ⟨h2, h3⟩ := Prod.mk.injEq .. ▸ Option.some.inj hrun
    subst h2
    exact ⟨by simp, hprop⟩
  · have h2 : ¬ mv ≤ 0 := by omega
    constructor
    · obtain ⟨fuel, res, hres, hrlen, hrm⟩ :=
        outerLoop_spec count mv s hs count [] 0 (by simp) (by simp) (by simp)
      refine ⟨fuel, res.1, res.2, ?_, hrlen, fun x hx => ⟨Int.ofNat_nonneg x, hrm x hx⟩⟩
      simp only [get_quantum_random_numbers, if_neg h2, if_neg h1]
      exact hres
    · intro fuel l used hrun
      simp only [get_quantum_random_numbers, if_neg h2, if_neg h1] at hrun
      obtain ⟨hl, hm⟩ :=
        outerLoop_sound count mv s fuel [] 0 (l, used) (by simp) (by simp) hrun
      exact ⟨hl, fun x hx => ⟨Int.ofNat_nonneg x, hm x hx⟩⟩

/-- Witness for C1 at `count = 2`, `max_value = 2`, constant-zero backend. -/
theorem c1_sampler_in_range_terminates_witness :
    (∃ fuel l used,
      get_quantum_random_numbers fuel 2 2 (fun _ => 0) = some (l, used) ∧
      l.length = 2 ∧ ∀ x : ℕ, x ∈ l → 0 ≤ (x : ℤ) ∧ (x : ℤ) < 2) ∧
    (∀ fuel l used, get_quantum_random_numbers fuel 2 2 (fun _ => 0) = some (l, used) →
      l.length = 2 ∧ ∀ x : ℕ, x ∈ l → 0 ≤ (x : ℤ) ∧ (x : ℤ) < 2) :=
  c1_sampler_in_range_terminates 2 2 (fun _ => 0) (by norm_num)
    (fun n => by simp [show num_qubits 2 = 1 from by norm_num [num_qubits, Nat.log2]])
    (fun k => ⟨k, le_rfl, by norm_num⟩)

/-- C3 counterexample: `get_quantum_random_numbers(5, 0)` does not fail; it
silently returns the empty list (consuming no backend shots). -/
theorem c3_invalid_max_silent_empty_cex :
    get_quantum_random_numbers 0 5 0 (fun _ => 0) = some ([], 0) := by
  decide

/-- C3 amended: for every `max_value ≤ 0`, the sampler silently returns the
empty list for every `count` (no error is raised, no shot is drawn), instead
of failing with an InvalidArgument error. -/
theorem c3_invalid_max_returns_empty (fuel count : ℕ) (mv : ℤ) (s : ℕ → ℕ)
    (h : mv ≤ 0) :
    get_quantum_random_numbers fuel count mv s = some ([], 0) := by
  simp [get_quantum_random_numbers, if_pos h]

/-- Witness for the amended C3 at `count = 5`, `max_value = 0`. -/
theorem c3_invalid_max_returns_empty_witness :
    (0 : ℤ) ≤ 0 ∧ get_quantum_random_numbers 0 5 0 (fun _ => 0) = some ([], 0) :=
  ⟨le_rfl, c3_invalid_max_returns_empty 0 5 0 (fun _ => 0) le_rfl⟩

/-- C7: `get_quantum_random_numbers(count, 1)` returns `count` zeros having
drawn zero shots from the backend (the circuit is never run), and
`get_quantum_random_numbers(0, max_value)` returns the empty sequence having
drawn zero shots, for every backend stream and every fuel. -/
theorem c7_degenerate_cases_no_source (fuel count : ℕ) (mv : ℤ) (s : ℕ → ℕ) :
    get_quantum_random_numbers fuel count 1 s = some (List.replicate count 0, 0) ∧
    get_quantum_random_numbers fuel 0 mv s = some ([], 0) := by
  constructor
  · simp [get_quantum_random_numbers]
  · by_cases h0 : mv ≤ 0
    · simp [get_quantum_random_numbers, if_pos h0]
    · by_cases h1 : mv = 1
      · subst h1; simp [get_quantum_random_numbers]
      · simp only [get_quantum_random_numbers, if_neg h0, if_neg h1]
        cases fuel <;> simp [outerLoop]

end QRand

namespace QGC

/-- `CHORDS` from `qumusic_generate_chords.py` (lines 9-16). -/
def CHORDS : List (List ℤ) :=
  [[60, 64, 67], [55, 59, 62], [57, 60, 64], [53, 57, 60], [52, 55, 59], [50, 53, 57]]

/-- `DURATIONS = [0.5, 1.0, 2.0]` from `generate_and_sync` (line 108). -/
def DURATIONS : List ℚ := [1/2, 1, 2]

/-- `CHORD_DURATION = 4.0` from `generate_and_sync` (line 109). -/
def CHORD_DURATION : ℚ := 4

/-- `LENGTH = 4` (line 24): number of bars/chords per run. -/
def LENGTH : ℕ := 4

/-- Fuel for one bar of the `while chord_time < CHORD_DURATION` loop: each
emitted note advances `chord_time` by at least `0.5` (or clamps the bar full),
so `2 * CHORD_DURATION + 2 = 10` iterations always suffice — proved below. -/
def barFuel : ℕ := 10

/-- `progression = [CHORDS[i] for i in chord_indices]` (line 116); an
out-of-range chord index would raise `IndexError`, modelled by `none`. -/
def lookupChords : List ℕ → Option (List (List ℤ))
  | [] => some []
  | i :: rest =>
    match CHORDS.get? i, lookupChords rest with
    | some c, some cs => some (c :: cs)
    | _, _ => none

/-- The `while chord_time < CHORD_DURATION` loop body of `generate_and_sync`
(lines 138-169) for one bar.  State: `chord_time` within the bar,
`current_time` of the whole run, the random cursor `q_counter`, and a
counter `w` of emitted "Ran out of pre-generated quantum numbers. Recycling."
diagnostics (each cursor wrap prints one).  Indexing errors are `none`;
running out of `fuel` is also `none` (proved unreachable below).
Returns `(notes, current_time, q_counter, diagnostics)`. -/
def barLoop (ext : List ℤ) (qp qd : List ℕ) :
    ℕ → ℚ → ℚ → ℕ → ℕ → Option (List Note × ℚ × ℕ × ℕ)
  | 0, _, _, _, _ => none
  | fuel + 1, chord_time, current_time, q, w =>
    if chord_time < CHORD_DURATION then
      -- safety check: wrap the cursor and print the diagnostic (lines 140-142)
      let w1 := if qp.length ≤ q then w + 1 else w
      let q1 := if qp.length ≤ q then 0 else q
      match qd.get? q1 with
      | none => none
      | some dur_index =>
        match DURATIONS.get? dur_index with
        | none => none
        | some d0 =>
          let dur? : Option ℚ :=
            if CHORD_DURATION < chord_time + d0 then
              -- clamp to the remaining time (lines 149-158)
              if CHORD_DURATION - chord_time ∈ DURATIONS then
                some (CHORD_DURATION - chord_time)
              else if 0 < CHORD_DURATION - chord_time then
                some (CHORD_DURATION - chord_time)
              else none                      -- `break` out of the bar
            else some d0
          match dur? with
          | none => some ([], current_time, q1, w1)
          | some duration =>
            match qp.get? q1 with
            | none => none
            | some note_index =>
              match ext.get? note_index with
              | none => none
              | some pitch =>
                match barLoop ext qp qd fuel (chord_time + duration)
                    (current_time + duration) (q1 + 1) w1 with
                | none => none
                | some (notes, t2, q2, w2) =>
                  some (⟨pitch, current_time, duration, 100⟩ :: notes, t2, q2, w2)
    else some ([], current_time, q, w)

/-- The `for chord in progression` loop of `generate_and_sync` (lines
133-169): each chord is extended by its root raised an octave and one bar is
generated; `current_time`, `q_counter` and the diagnostic count thread
through. -/
def chordsLoop (qp qd : List ℕ) :
    List (List ℤ) → ℚ → ℕ → ℕ → Option (List Note × ℚ × ℕ × ℕ)
  | [], current_time, q, w => some ([], current_time, q, w)
  | chord :: rest, current_time, q, w =>
    match chord.get? 0 with
    | none => none
    | some root =>
      match barLoop (chord ++ [root + 12]) qp qd barFuel 0 current_time q w with
      | none => none
      | some (notes, t1, q1, w1) =>
        match chordsLoop qp qd rest t1 q1 w1 with
        | none => none
        | some (notes2, t2, q2, w2) => some (notes ++ notes2, t2, q2, w2)

/-- The note-generation core of `generate_and_sync` from
`qumusic_generate_chords.py` (lines 106-169), as a function of the three
pre-materialized random streams: `qc` = `chord_indices`, `qp` =
`q_pitch_indices`, `qd` = `q_duration_indices`.  Returns the `notes_for_osc`
list, the final `current_time`, the final `q_counter`, and the number of
recycling diagnostics printed. -/
def generate_and_sync (qc qp qd : List ℕ) : Option (List Note × ℚ × ℕ × ℕ) :=
  match lookupChords qc with
  | none => none
  | some progression => chordsLoop qp qd progression 0 0 0

example : generate_and_sync [6] [0] [0] = none := by
  decide

theorem DURATIONS_pos (d : ℚ) (hd : d ∈ DURATIONS) : 1/2 ≤ d ∧ 0 < d := by
  simp only [DURATIONS, List.mem_cons, List.not_mem_nil, or_false] at hd
  rcases hd with rfl | rfl | rfl <;> norm_num

/-- Entering the bar loop body with an exhausted cursor behaves exactly like
entering it with the cursor wrapped to 0 and the diagnostic counter bumped. -/
theorem barLoop_wrap (ext : List ℤ) (qp qd : List ℕ) (fuel : ℕ) (ct curt : ℚ)
    (q w : ℕ) (hlt : ct < CHORD_DURATION) (hwrap : qp.length ≤ q)
    (hne : 0 < qp.length) :
    barLoop ext qp qd (fuel + 1) ct curt q w
      = barLoop ext qp qd (fuel + 1) ct curt 0 (w + 1) := by
  have h0 : ¬ qp.length ≤ 0 := by omega
  simp only [barLoop, if_pos hlt, if_pos hwrap, if_neg h0]

/-- One non-wrapped slot of the bar loop, assuming the spec at the remaining
fuel (the induction hypothesis of `barLoop_spec`). -/
theorem barLoop_slot (ext : List ℤ) (qp qd : List ℕ)
    (hp : ∀ x : ℕ, x ∈ qp → x < ext.length)
    (hd : ∀ x : ℕ, x ∈ qd → x < DURATIONS.length)
    (hlen : qd.length = qp.length) (hne : 0 < qp.length)
    (fuel : ℕ) (ct curt : ℚ) (q w : ℕ)
    (hlt : ct < CHORD_DURATION) (hq : q < qp.length)
    (hfuel : 2 * (CHORD_DURATION - ct) + 2 ≤ ((fuel + 1 : ℕ) : ℚ))
    (IH : ∀ (ct curt : ℚ) (q w : ℕ), ct ≤ CHORD_DURATION → q ≤ qp.length →
      2 * (CHORD_DURATION - ct) + 2 ≤ (fuel : ℚ) →
      ∃ notes t1 q1 w1,
        barLoop ext qp qd fuel ct curt q w = some (notes, t1, q1, w1) ∧
        ct + sumDur notes ≤ CHORD_DURATION ∧
        (∀ nt ∈ notes, 0 < nt.duration) ∧
        t1 = curt + sumDur notes ∧
        q1 ≤ qp.length ∧ w ≤ w1 ∧ (w1 = w → q1 = q + notes.length)) :
    ∃ notes t1 q1 w1,
      barLoop ext qp qd (fuel + 1) ct curt q w = some (notes, t1, q1, w1) ∧
      ct + sumDur notes ≤ CHORD_DURATION ∧
      (∀ nt ∈ notes, 0 < nt.duration) ∧
      t1 = curt + sumDur notes ∧
      q1 ≤ qp.length ∧ w ≤ w1 ∧ (w1 = w → q1 = q + notes.length) := by
  have hcast : ((fuel + 1 : ℕ) : ℚ) = (fuel : ℚ) + 1 := by push_cast; ring
  rw [hcast] at hfuel
  have hqd : q < qd.length := by omega
  obtain ⟨di, hdi⟩ : ∃ di, qd.get? q = some di := ⟨_, List.get?_eq_get hqd⟩
  have hdiD : di < DURATIONS.length := hd di (List.get?_mem hdi)
  obtain ⟨d0, hd0⟩ : ∃ d0, DURATIONS.get? di = some d0 := ⟨_, List.get?_eq_get hdiD⟩
  obtain ⟨hd0half, hd0pos⟩ := DURATIONS_pos d0 (List.get?_mem hd0)
  obtain ⟨ni, hni⟩ : ∃ ni, qp.get? q = some ni := ⟨_, List.get?_eq_get hq⟩
  have hniE : ni < ext.length := hp ni (List.get?_mem hni)
  obtain ⟨p, hpit⟩ : ∃ p, ext.get? ni = some p := ⟨_, List.get?_eq_get hniE⟩
  have hnw : ¬ qp.length ≤ q := by omega
  by_cases hcl : CHORD_DURATION < ct + d0
  · -- the drawn duration overflows the bar: clamp to the remaining time
    have hrem : (0 : ℚ) < CHORD_DURATION - ct := by linarith
    have hfuel2 : (2 : ℚ) ≤ (fuel : ℚ) := by
      have h1 : (1 : ℚ) < (fuel : ℚ) := by linarith
      have h2 : 1 < fuel := by exact_mod_cast h1
      exact_mod_cast h2
    obtain ⟨notes, t1, q1, w1, hrec, hsum, hpos, ht, hq1, hw1, hnwr⟩ :=
      IH (ct + (CHORD_DURATION - ct)) (curt + (CHORD_DURATION - ct)) (q + 1) w
        (by linarith) (by omega) (by linarith)
    have hdur : (if CHORD_DURATION < ct + d0 then
          if CHORD_DURATION - ct ∈ DURATIONS then some (CHORD_DURATION - ct)
          else if 0 < CHORD_DURATION - ct then some (CHORD_DURATION - ct) else none
        else some d0) = some (CHORD_DURATION - ct) := by
      rw [if_pos hcl]
      by_cases hmem : CHORD_DURATION - ct ∈ DURATIONS
      · rw [if_pos hmem]
      · rw [if_neg hmem, if_pos hrem]
    refine ⟨⟨p, curt, CHORD_DURATION - ct, 100⟩ :: notes, t1, q1, w1, ?_, ?_, ?_, ?_, hq1,
      hw1, ?_⟩
    · simp only [barLoop, if_pos hlt, if_neg hnw, hdi, hd0, hdur, hni, hpit, hrec]
    · simp only [sumDur_cons]
      linarith
    · intro nt hnt
      rcases List.mem_cons.mp hnt with rfl | hmem2
      · exact hrem
      · exact hpos nt hmem2
    · simp only [sumDur_cons]
      rw [ht]; ring
    · intro hww
      have : q1 = q + 1 + notes.length := hnwr hww
      simp only [List.length_cons]
      omega
  · -- the drawn duration fits
    have hle : ct + d0 ≤ CHORD_DURATION := by linarith
    obtain ⟨notes, t1, q1, w1, hrec, hsum, hpos, ht, hq1, hw1, hnwr⟩ :=
      IH (ct + d0) (curt + d0) (q + 1) w hle (by omega) (by linarith)
    have hdur : (if CHORD_DURATION < ct + d0 then
          if CHORD_DURATION - ct ∈ DURATIONS then some (CHORD_DURATION - ct)
          else if 0 < CHORD_DURATION - ct then some (CHORD_DURATION - ct) else none
        else some d0) = some d0 := if_neg hcl
    refine ⟨⟨p, curt, d0, 100⟩ :: notes, t1, q1, w1, ?_, ?_, ?_, ?_, hq1, hw1, ?_⟩
    · simp only [barLoop, if_pos hlt, if_neg hnw, hdi, hd0, hdur, hni, hpit, hrec]
    · simp only [sumDur_cons]
      linarith
    · intro nt hnt
      rcases List.mem_cons.mp hnt with rfl | hmem2
      · exact hd0pos
      · exact hpos nt hmem2
    · simp only [sumDur_cons]
      rw [ht]; ring
    · intro hww
      have : q1 = q + 1 + notes.length := hnwr hww
      simp only [List.length_cons]
      omega

/-- Full specification of one bar of `generate_and_sync`: with in-range
streams of equal nonzero length and enough fuel, the bar loop succeeds; the
durations it emits are positive and their sum fits in the remaining bar time;
time, cursor and diagnostics advance consistently. -/
theorem barLoop_spec (ext : List ℤ) (qp qd : List ℕ)
    (hp : ∀ x : ℕ, x ∈ qp → x < ext.length)
    (hd : ∀ x : ℕ, x ∈ qd → x < DURATIONS.length)
    (hlen : qd.length = qp.length) (hne : 0 < qp.length) :
    ∀ (fuel : ℕ) (ct curt : ℚ) (q w : ℕ), ct ≤ CHORD_DURATION → q ≤ qp.length →
      2 * (CHORD_DURATION - ct) + 2 ≤ (fuel : ℚ) →
      ∃ notes t1 q1 w1,
        barLoop ext qp qd fuel ct curt q w = some (notes, t1, q1, w1) ∧
        ct + sumDur notes ≤ CHORD_DURATION ∧
        (∀ nt ∈ notes, 0 < nt.duration) ∧
        t1 = curt + sumDur notes ∧
        q1 ≤ qp.length ∧ w ≤ w1 ∧ (w1 = w → q1 = q + notes.length) := by
  intro fuel
  induction fuel with
  | zero =>
    intro ct curt q w hct hq hfuel
    exfalso
    rw [Nat.cast_zero] at hfuel
    linarith
  | succ fuel ih =>
    intro ct curt q w hct hq hfuel
    by_cases hlt : ct < CHORD_DURATION
    · by_cases hwrap : qp.length ≤ q
      · rw [barLoop_wrap ext qp qd fuel ct curt q w hlt hwrap hne]
        obtain ⟨notes, t1, q1, w1, hrun, hsum, hpos, ht, hq1, hw1, hnwr⟩ :=
          barLoop_slot ext qp qd hp hd hlen hne fuel ct curt 0 (w + 1) hlt hne hfuel ih
        exact ⟨notes, t1, q1, w1, hrun, hsum, hpos, ht, hq1, by omega,
          fun h => by omega⟩
      · exact barLoop_slot ext qp qd hp hd hlen hne fuel ct curt q w hlt
          (by omega) hfuel ih
    · refine ⟨[], curt, q, w, ?_, by simpa using hct, by simp, by simp, hq, le_rfl, by simp⟩
      simp only [barLoop, if_neg hlt]

theorem lookupChords_spec (qc : List ℕ) (hqc : ∀ x : ℕ, x ∈ qc → x < CHORDS.length) :
    ∃ progression, lookupChords qc = some progression ∧
      ∀ c ∈ progression, c ∈ CHORDS := by
  induction qc with
  | nil => exact ⟨[], rfl, by simp⟩
  | cons i rest ih =>
    obtain ⟨prog, hprog, hmem⟩ := ih (fun x hx => hqc x (List.mem_cons_of_mem i hx))
    have hi : i < CHORDS.length := hqc i (List.mem_cons_self i rest)
    obtain ⟨c, hc⟩ : ∃ c, CHORDS.get? i = some c := ⟨_, List.get?_eq_get hi⟩
    refine ⟨c :: prog, ?_, ?_⟩
    · simp only [lookupChords, hc, hprog]
    · intro c2 hc2
      rcases List.mem_cons.mp hc2 with rfl | h2
      · exact List.get?_mem hc
      · exact hmem c2 h2

theorem CHORDS_length_three (c : List ℤ) (hc : c ∈ CHORDS) : c.length = 3 := by
  simp only [CHORDS, List.mem_cons, List.not_mem_nil, or_false] at hc
  rcases hc with rfl | rfl | rfl | rfl | rfl | rfl <;> rfl

/-- Specification of the chord loop of `generate_and_sync`: for any
progression of 3-note chords, the loop over all bars succeeds and the cursor
and diagnostic counters thread consistently. -/
theorem chordsLoop_spec (qp qd : List ℕ)
    (hp : ∀ x : ℕ, x ∈ qp → x < 4)
    (hd : ∀ x : ℕ, x ∈ qd → x < DURATIONS.length)
    (hlen : qd.length = qp.length) (hne : 0 < qp.length) :
    ∀ (progression : List (List ℤ)) (curt : ℚ) (q w : ℕ),
      (∀ c ∈ progression, c.length = 3) → q ≤ qp.length →
      ∃ notes t1 q1 w1,
        chordsLoop qp qd progression curt q w = some (notes, t1, q1, w1) ∧
        q1 ≤ qp.length ∧ w ≤ w1 ∧ (w1 = w → q1 = q + notes.length) := by
  intro progression
  induction progression with
  | nil =>
    intro curt q w _ hq
    exact ⟨[], curt, q, w, rfl, hq, le_rfl, by simp⟩
  | cons c rest ih =>
    intro curt q w hc3 hq
    have hc : c.length = 3 := hc3 c (List.mem_cons_self c rest)
    have h0 : 0 < c.length := by omega
    obtain ⟨root, hroot⟩ : ∃ root, c.get? 0 = some root := ⟨_, List.get?_eq_get h0⟩
    have hext : (c ++ [root + 12]).length = 4 := by simp [hc]
    obtain ⟨notes, t1, q1, w1, hbar, _, _, _, hq1, hw1, hnw1⟩ :=
      barLoop_spec (c ++ [root + 12]) qp qd (fun x hx => by rw [hext]; exact hp x hx) hd hlen hne
        barFuel 0 curt q w (by norm_num [CHORD_DURATION]) hq
        (by norm_num [CHORD_DURATION, barFuel])
    obtain ⟨notes2, t2, q2, w2, hrest, hq2, hw2, hnw2⟩ :=
      ih t1 q1 w1 (fun c2 h2 => hc3 c2 (List.mem_cons_of_mem c h2)) hq1
    refine ⟨notes ++ notes2, t2, q2, w2, ?_, hq2, le_trans hw1 hw2, ?_⟩
    · simp only [chordsLoop, hroot, hbar, hrest]
    · intro hww
      have hww1 : w1 = w := by omega
      have e1 : q1 = q + notes.length := hnw1 hww1
      have e2 : q2 = q1 + notes2.length := hnw2 (by omega)
      simp only [List.length_append]
      omega

/-- C2 (amended): every bar of the variable-duration engine of
`qumusic_generate_chords.py` — each bar is one run of `barLoop` from
`chord_time = 0` — emits notes whose durations are all positive and sum to at
most `CHORD_DURATION`, for every in-range pitch/duration streams of equal
nonzero length and every starting cursor/time.  (The Multitrack variant does
not enforce this; see the counterexample.) -/
theorem c2_bar_durations_bounded_qgc (ext : List ℤ) (qp qd : List ℕ)
    (curt : ℚ) (q w : ℕ)
    (hp : ∀ x : ℕ, x ∈ qp → x < ext.length)
    (hd : ∀ x : ℕ, x ∈ qd → x < DURATIONS.length)
    (hlen : qd.length = qp.length) (hne : 0 < qp.length) (hq : q ≤ qp.length) :
    ∃ notes t1 q1 w1,
      barLoop ext qp qd barFuel 0 curt q w = some (notes, t1, q1, w1) ∧
      sumDur notes ≤ CHORD_DURATION ∧
      ∀ nt ∈ notes, 0 < nt.duration := by
  obtain ⟨notes, t1, q1, w1, hbar, hsum, hpos, _, _, _, _⟩ :=
    barLoop_spec ext qp qd hp hd hlen hne barFuel 0 curt q w
      (by norm_num [CHORD_DURATION]) hq (by norm_num [CHORD_DURATION, barFuel])
  exact ⟨notes, t1, q1, w1, hbar, by simpa using hsum, hpos⟩

/-- Witness for the amended C2 at a concrete bar. -/
theorem c2_bar_durations_bounded_qgc_witness :
    (∀ x : ℕ, x ∈ [0, 1] → x < 4) ∧
    (∃ notes t1 q1 w1,
      barLoop [60, 64, 67, 72] [0, 1] [2, 2] barFuel 0 0 0 0 = some (notes, t1, q1, w1) ∧
      sumDur notes ≤ CHORD_DURATION ∧
      ∀ nt ∈ notes, 0 < nt.duration) :=
  ⟨by decide,
    c2_bar_durations_bounded_qgc [60, 64, 67, 72] [0, 1] [2, 2] 0 0 0
      (by decide) (by decide) (by decide) (by decide) (by decide)⟩

/-- C6: in the variable-duration engine, exhaustion of the pre-generated
streams is handled by wrapping the cursor to 0 with a diagnostic and
continuing: for arbitrarily short (nonzero) in-range streams the whole run
still returns a result (never an out-of-range access, never a failure), and
whenever it emitted more notes than the stream length, at least one
wrap diagnostic was emitted (`w > 0`). -/
theorem c6_stream_exhaustion_wraps_and_continues (qc qp qd : List ℕ)
    (hqc : ∀ x : ℕ, x ∈ qc → x < CHORDS.length)
    (hp : ∀ x : ℕ, x ∈ qp → x < 4)
    (hd : ∀ x : ℕ, x ∈ qd → x < DURATIONS.length)
    (hlen : qd.length = qp.length) (hne : 0 < qp.length) :
    ∃ notes t1 q1 w1,
      generate_and_sync qc qp qd = some (notes, t1, q1, w1) ∧
      (qp.length < notes.length → 0 < w1) := by
  obtain ⟨progression, hprog, hmem⟩ := lookupChords_spec qc hqc
  obtain ⟨notes, t1, q1, w1, hrun, hq1, hw1, hnw⟩ :=
    chordsLoop_spec qp qd hp hd hlen hne progression 0 0 0
      (fun c hc => CHORDS_length_three c (hmem c hc)) (by omega)
  refine ⟨notes, t1, q1, w1, ?_, ?_⟩
  · simp only [generate_and_sync, hprog, hrun]
  · intro hlong
    by_contra hw0
    have hww : w1 = 0 := by omega
    have := hnw hww
    omega

/-- Witness for C6: one bar, streams of length 1, so the cursor must wrap. -/
theorem c6_stream_exhaustion_wraps_and_continues_witness :
    0 < [(0 : ℕ)].length ∧
    ∃ notes t1 q1 w1,
      generate_and_sync [0] [0] [1] = some (notes, t1, q1, w1) ∧
      ([(0 : ℕ)].length < notes.length → 0 < w1) :=
  ⟨by decide,
    c6_stream_exhaustion_wraps_and_continues [0] [0] [1]
      (by decide) (by decide) (by decide) (by decide) (by decide)⟩

end QGC

namespace QMT

/-- `CHORDS` from `qmusic_generate_chords_Multitrack.py` (lines 10-17). -/
def CHORDS : List (List ℤ) :=
  [[60, 64, 67], [55, 59, 62], [57, 60, 64], [53, 57, 60], [52, 55, 59], [50, 53, 57]]

/-- `NOTES_PER_CHORD = 16` (line 18): fixed slot count per bar. -/
def NOTES_PER_CHORD : ℕ := 16

/-- `CHORD_DURATION = 8.0` (line 19). -/
def CHORD_DURATION : ℚ := 8

/-- `DURATIONS = [0, 0.5, 0.75, 1.0, 2.0]` (line 20); note the 0 entry. -/
def DURATIONS : List ℚ := [0, 1/2, 3/4, 1, 2]

/-- `LENGTH = 4` (line 27): bars per clip. -/
def LENGTH : ℕ := 4

/-- `progression = [CHORDS[i] for i in chord_indices]` (line 114). -/
def lookupChords : List ℕ → Option (List (List ℤ))
  | [] => some []
  | i :: rest =>
    match CHORDS.get? i, lookupChords rest with
    | some c, some cs => some (c :: cs)
    | _, _ => none

/-- The `for _ in range(NOTES_PER_CHORD)` loop of `generate_and_sync`
(lines 136-150): every slot draws one pitch index and one duration index at
the shared cursor `q`, emits one note (whatever the drawn duration, including
0), advances time by that duration and the cursor by one.  There is no bounds
guard: an exhausted stream raises `IndexError`, modelled by `none`. -/
def noteLoop (ext : List ℤ) (qp qd : List ℕ) :
    ℕ → ℚ → ℕ → Option (List Note × ℚ × ℕ)
  | 0, current_time, q => some ([], current_time, q)
  | n + 1, current_time, q =>
    match qp.get? q with
    | none => none
    | some note_index =>
      match ext.get? note_index with
      | none => none
      | some pitch =>
        match qd.get? q with
        | none => none
        | some dur_index =>
          match DURATIONS.get? dur_index with
          | none => none
          | some note_duration =>
            match noteLoop ext qp qd n (current_time + note_duration) (q + 1) with
            | none => none
            | some (notes, t1, q1) =>
              some (⟨pitch, current_time, note_duration, 100⟩ :: notes, t1, q1)

/-- The `for chord in progression` loop (lines 132-150). -/
def chordsLoop (qp qd : List ℕ) :
    List (List ℤ) → ℚ → ℕ → Option (List Note × ℚ × ℕ)
  | [], current_time, q => some ([], current_time, q)
  | chord :: rest, current_time, q =>
    match chord.get? 0 with
    | none => none
    | some root =>
      match noteLoop (chord ++ [root + 12]) qp qd NOTES_PER_CHORD current_time q with
      | none => none
      | some (notes, t1, q1) =>
        match chordsLoop qp qd rest t1 q1 with
        | none => none
        | some (notes2, t2, q2) => some (notes ++ notes2, t2, q2)

/-- The note-generation core of `generate_and_sync` from
`qmusic_generate_chords_Multitrack.py` (lines 110-150), as a function of the
three pre-materialized random streams: `qc` = `chord_indices` (length
`LENGTH`), `qp` = `q_pitch_indices` and `qd` = `q_duration_indices` (length
`LENGTH * NOTES_PER_CHORD` each).  Returns `notes_for_osc`, the final
`current_time`, and the final `q_counter`. -/
def generate_and_sync (qc qp qd : List ℕ) : Option (List Note × ℚ × ℕ) :=
  match lookupChords qc with
  | none => none
  | some progression => chordsLoop qp qd progression 0 0

theorem lookupChords_total (qc : List ℕ) (hqc : ∀ x : ℕ, x ∈ qc → x < CHORDS.length) :
    ∃ progression, lookupChords qc = some progression ∧
      progression.length = qc.length ∧ ∀ c ∈ progression, c ∈ CHORDS := by
  induction qc with
  | nil => exact ⟨[], rfl, rfl, by simp⟩
  | cons i rest ih =>
    obtain ⟨prog, hprog, hplen, hmem⟩ := ih (fun x hx => hqc x (List.mem_cons_of_mem i hx))
    have hi : i < CHORDS.length := hqc i (List.mem_cons_self i rest)
    obtain ⟨c, hc⟩ : ∃ c, CHORDS.get? i = some c := ⟨_, List.get?_eq_get hi⟩
    refine ⟨c :: prog, ?_, by simp [hplen], ?_⟩
    · simp only [lookupChords, hc, hprog]
    · intro c2 hc2
      rcases List.mem_cons.mp hc2 with rfl | h2
      · exact List.get?_mem hc
      · exact hmem c2 h2

theorem CHORDS_entries_length (c : List ℤ) (hc : c ∈ CHORDS) : c.length = 3 := by
  simp only [CHORDS, List.mem_cons, List.not_mem_nil, or_false] at hc
  rcases hc with rfl | rfl | rfl | rfl | rfl | rfl <;> rfl

/-- Full specification of one bar of the Multitrack engine: exactly `n` notes
are emitted, one per slot, the cursor advances by exactly `n`, and the note of
slot `i` carries exactly the palette duration selected by the duration stream
at the cursor — including the palette entry 0. -/
theorem noteLoop_spec (ext : List ℤ) (qp qd : List ℕ)
    (hp : ∀ x : ℕ, x ∈ qp → x < ext.length)
    (hd : ∀ x : ℕ, x ∈ qd → x < DURATIONS.length) :
    ∀ (n : ℕ) (curt : ℚ) (q : ℕ), q + n ≤ qp.length → q + n ≤ qd.length →
      ∃ notes t1,
        noteLoop ext qp qd n curt q = some (notes, t1, q + n) ∧
        notes.length = n ∧
        ∀ i : ℕ, i < n →
          ∃ nt di d, notes.get? i = some nt ∧ qd.get? (q + i) = some di ∧
            DURATIONS.get? di = some d ∧ nt.duration = d := by
  intro n
  induction n with
  | zero =>
    intro curt q _ _
    exact ⟨[], curt, rfl, rfl, by omega⟩
  | succ n ih =>
    intro curt q hqp hqd
    have hq : q < qp.length := by omega
    obtain ⟨ni, hni⟩ : ∃ ni, qp.get? q = some ni := ⟨_, List.get?_eq_get hq⟩
    have hniE : ni < ext.length := hp ni (List.get?_mem hni)
    obtain ⟨p, hpit⟩ : ∃ p, ext.get? ni = some p := ⟨_, List.get?_eq_get hniE⟩
    have hqd0 : q < qd.length := by omega
    obtain ⟨di, hdi⟩ : ∃ di, qd.get? q = some di := ⟨_, List.get?_eq_get hqd0⟩
    have hdiD : di < DURATIONS.length := hd di (List.get?_mem hdi)
    obtain ⟨d0, hd0⟩ : ∃ d0, DURATIONS.get? di = some d0 := ⟨_, List.get?_eq_get hdiD⟩
    obtain ⟨notes, t1, hrec, hlen1, hchar⟩ :=
      ih (curt + d0) (q + 1) (by omega) (by omega)
    have hq1 : q + 1 + n = q + (n + 1) := by omega
    refine ⟨⟨p, curt, d0, 100⟩ :: notes, t1, ?_, by simp [hlen1], ?_⟩
    · rw [← hq1]
      simp only [noteLoop, hni, hpit, hdi, hd0, hrec]
    · intro i hi
      match i with
      | 0 => exact ⟨_, di, d0, rfl, by rw [Nat.add_zero]; exact hdi, hd0, rfl⟩
      | j + 1 =>
        obtain ⟨nt, di2, d2, hg, hdg, hDg, hdur⟩ := hchar j (by omega)
        exact ⟨nt, di2, d2, hg, by rw [show q + (j + 1) = q + 1 + j by omega]; exact hdg,
          hDg, hdur⟩

/-- Specification of the Multitrack chord loop: every slot of every bar emits
exactly one note whose duration is the palette entry selected by the duration
stream at the global slot index. -/
theorem chordsLoop_char (qp qd : List ℕ)
    (hp : ∀ x : ℕ, x ∈ qp → x < 4)
    (hd : ∀ x : ℕ, x ∈ qd → x < DURATIONS.length) :
    ∀ (progression : List (List ℤ)) (curt : ℚ) (q : ℕ),
      (∀ c ∈ progression, c.length = 3) →
      q + NOTES_PER_CHORD * progression.length ≤ qp.length →
      q + NOTES_PER_CHORD * progression.length ≤ qd.length →
      ∃ notes t1,
        chordsLoop qp qd progression curt q
          = some (notes, t1, q + NOTES_PER_CHORD * progression.length) ∧
        notes.length = NOTES_PER_CHORD * progression.length ∧
        ∀ i : ℕ, i < notes.length →
          ∃ nt di d, notes.get? i = some nt ∧ qd.get? (q + i) = some di ∧
            DURATIONS.get? di = some d ∧ nt.duration = d := by
  intro progression
  induction progression with
  | nil =>
    intro curt q _ _ _
    exact ⟨[], curt, by simp [chordsLoop], rfl, by simp⟩
  | cons c rest ih =>
    intro curt q hc3 hqp hqd
    have hc : c.length = 3 := hc3 c (List.mem_cons_self c rest)
    have h0 : 0 < c.length := by omega
    obtain ⟨root, hroot⟩ : ∃ root, c.get? 0 = some root := ⟨_, List.get?_eq_get h0⟩
    have hext : (c ++ [root + 12]).length = 4 := by simp [hc]
    have hlr : NOTES_PER_CHORD * (c :: rest).length
        = NOTES_PER_CHORD + NOTES_PER_CHORD * rest.length := by
      simp [List.length_cons]; ring
    obtain ⟨notes, t1, hbar, hlen1, hchar1⟩ :=
      noteLoop_spec (c ++ [root + 12]) qp qd (fun x hx => by rw [hext]; exact hp x hx) hd
        NOTES_PER_CHORD curt q (by omega) (by omega)
    obtain ⟨notes2, t2, hrest, hlen2, hchar2⟩ :=
      ih t1 (q + NOTES_PER_CHORD) (fun c2 h2 => hc3 c2 (List.mem_cons_of_mem c h2))
        (by omega) (by omega)
    refine ⟨notes ++ notes2, t2, ?_, ?_, ?_⟩
    · simp only [chordsLoop, hroot, hbar, hrest]
      rw [show q + NOTES_PER_CHORD + NOTES_PER_CHORD * rest.length
          = q + NOTES_PER_CHORD * (c :: rest).length by omega]
    · simp only [List.length_append, hlen1, hlen2]
      omega
    · intro i hi
      simp only [List.length_append] at hi
      by_cases hi1 : i < notes.length
      · obtain ⟨nt, di, d, hg, hdg, hDg, hdur⟩ := hchar1 i (by omega)
        exact ⟨nt, di, d, by rw [List.get?_append hi1]; exact hg, hdg, hDg, hdur⟩
      · push_neg at hi1
        obtain ⟨nt, di, d, hg, hdg, hDg, hdur⟩ := hchar2 (i - notes.length) (by omega)
        refine ⟨nt, di, d, by rw [List.get?_append_right hi1]; exact hg, ?_, hDg, hdur⟩
        rw [show q + i = q + NOTES_PER_CHORD + (i - notes.length) by omega] at *
        exact hdg

/-- Full characterization of a Multitrack run: the number of emitted notes is
exactly `NOTES_PER_CHORD` per chord (one per slot), and the note of global
slot `i` carries exactly the palette duration selected by `q_duration_indices`
at `i`. -/
theorem generate_and_sync_spec (qc qp qd : List ℕ)
    (hqc : ∀ x : ℕ, x ∈ qc → x < CHORDS.length)
    (hp : ∀ x : ℕ, x ∈ qp → x < 4)
    (hd : ∀ x : ℕ, x ∈ qd → x < DURATIONS.length)
    (hqp : NOTES_PER_CHORD * qc.length ≤ qp.length)
    (hqd : NOTES_PER_CHORD * qc.length ≤ qd.length) :
    ∃ notes t1,
      generate_and_sync qc qp qd = some (notes, t1, NOTES_PER_CHORD * qc.length) ∧
      notes.length = NOTES_PER_CHORD * qc.length ∧
      ∀ i : ℕ, i < notes.length →
        ∃ nt di d, notes.get? i = some nt ∧ qd.get? i = some di ∧
          DURATIONS.get? di = some d ∧ nt.duration = d := by
  obtain ⟨prog, hprog, hplen, hmem⟩ := lookupChords_total qc hqc
  have h3 : ∀ c ∈ prog, c.length = 3 := fun c hc => CHORDS_entries_length c (hmem c hc)
  obtain ⟨notes, t1, hrun, hlen, hchar⟩ :=
    chordsLoop_char qp qd hp hd prog 0 0 h3
      (by simp only [Nat.zero_add, hplen]; exact hqp)
      (by simp only [Nat.zero_add, hplen]; exact hqd)
  refine ⟨notes, t1, ?_, ?_, ?_⟩
  · simp only [generate_and_sync, hprog]
    rw [hrun, hplen, Nat.zero_add]
  · rw [hlen, hplen]
  · intro i hi
    obtain ⟨nt, di, d, hg, hdg, hDg, hdur⟩ := hchar i hi
    rw [Nat.zero_add] at hdg
    exact ⟨nt, di, d, hg, hdg, hDg, hdur⟩

/-- A Multitrack run on constant pitch/duration streams: all note durations
equal the single selected palette entry. -/
theorem generate_and_sync_const_dur (qc : List ℕ) (m a k : ℕ) (d : ℚ)
    (hqc : ∀ x : ℕ, x ∈ qc → x < CHORDS.length)
    (ha : a < 4) (hk : k < DURATIONS.length)
    (hm : NOTES_PER_CHORD * qc.length ≤ m)
    (hDk : DURATIONS.get? k = some d) :
    ∃ notes t1,
      generate_and_sync qc (List.replicate m a) (List.replicate m k)
        = some (notes, t1, NOTES_PER_CHORD * qc.length) ∧
      notes.length = NOTES_PER_CHORD * qc.length ∧
      notes.map Note.duration = List.replicate (NOTES_PER_CHORD * qc.length) d := by
  obtain ⟨notes, t1, hrun, hlen, hchar⟩ :=
    generate_and_sync_spec qc (List.replicate m a) (List.replicate m k) hqc
      (fun x hx => by rw [List.eq_of_mem_replicate hx]; exact ha)
      (fun x hx => by rw [List.eq_of_mem_replicate hx]; exact hk)
      (by rw [List.length_replicate]; exact hm)
      (by rw [List.length_replicate]; exact hm)
  refine ⟨notes, t1, hrun, hlen, ?_⟩
  apply List.ext
  intro i
  by_cases hi : i < notes.length
  · obtain ⟨nt, di, d2, hg, hdg, hDg, hdur⟩ := hchar i hi
    have him : i < m := by omega
    have hdik : di = k := by
      have hr : (List.replicate m k).get? i = some k := by
        simp [List.get?_eq_getElem?, List.getElem?_replicate, him]
      rw [hr] at hdg
      exact Option.some_injective _ hdg.symm
    rw [hdik, hDk] at hDg
    have hdd : d2 = d := Option.some_injective _ hDg.symm
    have hrep : (List.replicate (NOTES_PER_CHORD * qc.length) d).get? i = some d := by
      simp only [List.get?_eq_getElem?, List.getElem?_replicate]
      rw [if_pos (by omega)]
    rw [List.get?_map, hg, hrep]
    simp [hdur, hdd]
  · push_neg at hi
    rw [List.get?_eq_none.mpr (by simpa using hi),
      List.get?_eq_none.mpr (by rw [List.length_replicate]; omega)]

/-- C4 (amended): when a drawn duration index selects the palette entry 0, the
Multitrack engine emits a `NoteEvent` with duration 0 for that slot (the draws
are consumed and the cursor advances exactly one slot per note); zero-duration
note events therefore do appear in the output.  More precisely, every slot
emits exactly one note whose duration is the palette entry selected by the
duration stream at that slot, so the emitted note count always equals the slot
count. -/
theorem c4_zero_palette_emits_zero_duration_note (qc qp qd : List ℕ)
    (hqc : ∀ x : ℕ, x ∈ qc → x < CHORDS.length)
    (hp : ∀ x : ℕ, x ∈ qp → x < 4)
    (hd : ∀ x : ℕ, x ∈ qd → x < DURATIONS.length)
    (hqp : NOTES_PER_CHORD * qc.length ≤ qp.length)
    (hqd : NOTES_PER_CHORD * qc.length ≤ qd.length) :
    ∃ notes t1,
      generate_and_sync qc qp qd = some (notes, t1, NOTES_PER_CHORD * qc.length) ∧
      notes.length = NOTES_PER_CHORD * qc.length ∧
      ∀ i : ℕ, i < notes.length →
        ∃ nt di d, notes.get? i = some nt ∧ qd.get? i = some di ∧
          DURATIONS.get? di = some d ∧ nt.duration = d :=
  generate_and_sync_spec qc qp qd hqc hp hd hqp hqd

/-- Witness for the amended C4: one bar, all duration draws select palette
entry 0; the run emits 16 notes, whose slot-0 duration is the palette entry 0. -/
theorem c4_zero_palette_emits_zero_duration_note_witness :
    (∀ x : ℕ, x ∈ List.replicate 16 0 → x < DURATIONS.length) ∧
    ∃ notes t1,
      generate_and_sync [0] (List.replicate 16 0) (List.replicate 16 0)
        = some (notes, t1, NOTES_PER_CHORD * [0].length) ∧
      notes.length = NOTES_PER_CHORD * [0].length ∧
      ∀ i : ℕ, i < notes.length →
        ∃ nt di d, notes.get? i = some nt ∧
          (List.replicate 16 0).get? i = some di ∧
          DURATIONS.get? di = some d ∧ nt.duration = d :=
  ⟨by decide,
    c4_zero_palette_emits_zero_duration_note [0] (List.replicate 16 0)
      (List.replicate 16 0) (by decide) (by decide) (by decide) (by decide) (by decide)⟩

/-- C4 counterexample: with every duration draw selecting palette entry 0, the
Multitrack engine emits sixteen `NoteEvent`s all of duration 0 — the claimed
"skip" (no note emitted, no zero-duration `NoteEvent` in the output) does not
happen. -/
theorem c4_zero_palette_skip_cex :
    (generate_and_sync [0] (List.replicate 16 0) (List.replicate 16 0)).elim False
      (fun r => r.1.map Note.duration = List.replicate 16 0 ∧ r.1.length = 16) := by
  obtain ⟨notes, t1, hrun, hlen, hmap⟩ :=
    generate_and_sync_const_dur [0] 16 0 0 0 (by decide) (by decide) (by decide)
      (by decide) (by decide)
  rw [hrun]
  exact ⟨hmap, hlen⟩

/-- C2 counterexample: in the Multitrack engine (the variant whose duration
palette drives variable note durations), with every duration draw selecting
the palette entry 2.0 the first bar (its fixed 16 slots) emits notes whose
durations sum to 32, exceeding `CHORD_DURATION = 8`; no clamping occurs. -/
theorem c2_bar_overflow_cex :
    (generate_and_sync (List.replicate 4 0) (List.replicate 64 0)
        (List.replicate 64 4)).elim False
      (fun r => sumDur (r.1.take 16) = 32 ∧ CHORD_DURATION < 32) := by
  obtain ⟨notes, t1, hrun, hlen, hmap⟩ :=
    generate_and_sync_const_dur (List.replicate 4 0) 64 0 4 2 (by decide) (by decide)
      (by decide) (by decide) (by decide)
  rw [hrun]
  refine ⟨?_, by norm_num [CHORD_DURATION]⟩
  have htake : List.map Note.duration (List.take 16 notes) = List.replicate 16 2 := by
    have h64 : NOTES_PER_CHORD * (List.replicate 4 (0 : ℕ)).length = 64 := by decide
    rw [h64] at hmap
    rw [List.map_take, hmap, List.take_replicate]
    norm_num
  rw [sumDur, htake, List.sum_replicate, nsmul_eq_mul]
  norm_num

end QMT

/-- C10: no list access in either mapping engine can go out of bounds: for
every in-range chord/pitch/duration streams (of the lengths each engine
requests, or longer; for the chords engine any nonzero length, since its
cursor wraps), a full generation run returns a result — it never hits the
`none` that models a Python `IndexError`. -/
theorem c10_no_out_of_bounds_access :
    (∀ qc qp qd : List ℕ,
      (∀ x : ℕ, x ∈ qc → x < QGC.CHORDS.length) →
      (∀ x : ℕ, x ∈ qp → x < 4) →
      (∀ x : ℕ, x ∈ qd → x < QGC.DURATIONS.length) →
      qd.length = qp.length → 0 < qp.length →
      ∃ r, QGC.generate_and_sync qc qp qd = some r) ∧
    (∀ qc qp qd : List ℕ,
      (∀ x : ℕ, x ∈ qc → x < QMT.CHORDS.length) →
      (∀ x : ℕ, x ∈ qp → x < 4) →
      (∀ x : ℕ, x ∈ qd → x < QMT.DURATIONS.length) →
      QMT.NOTES_PER_CHORD * qc.length ≤ qp.length →
      QMT.NOTES_PER_CHORD * qc.length ≤ qd.length →
      ∃ r, QMT.generate_and_sync qc qp qd = some r) := by
  constructor
  · intro qc qp qd hqc hp hd hlen hne
    obtain ⟨prog, hprog, hmem⟩ := QGC.lookupChords_spec qc hqc
    obtain ⟨notes, t1, q1, w1, hrun, _, _, _⟩ :=
      QGC.chordsLoop_spec qp qd hp hd hlen hne prog 0 0 0
        (fun c hc => QGC.CHORDS_length_three c (hmem c hc)) (by omega)
    exact ⟨(notes, t1, q1, w1), by simp only [QGC.generate_and_sync, hprog, hrun]⟩
  · intro qc qp qd hqc hp hd hqp hqd
    obtain ⟨notes, t1, hrun, _, _⟩ :=
      QMT.generate_and_sync_spec qc qp qd hqc hp hd hqp hqd
    exact ⟨(notes, t1, QMT.NOTES_PER_CHORD * qc.length), hrun⟩

/-- Witness for C10 at concrete in-range streams for both engines. -/
theorem c10_no_out_of_bounds_access_witness :
    (∃ r, QGC.generate_and_sync [0, 1] [0, 1, 2] [0, 1, 2] = some r) ∧
    (∃ r, QMT.generate_and_sync [0] (List.replicate 16 1) (List.replicate 16 3) = some r) :=
  ⟨c10_no_out_of_bounds_access.1 [0, 1] [0, 1, 2] [0, 1, 2]
      (by decide) (by decide) (by decide) (by decide) (by decide),
    c10_no_out_of_bounds_access.2 [0] (List.replicate 16 1) (List.replicate 16 3)
      (by decide) (by decide) (by decide) (by decide) (by decide)⟩

/-- C9: with the backend replaced by fixed stub streams, both mapping engines
are pure functions of the streams: two runs over equal streams produce
identical note-event sequences (same pitches, start times, durations,
velocities, in the same order). -/
theorem c9_deterministic_replay (qc qp qd qc2 qp2 qd2 : List ℕ)
    (h1 : qc = qc2) (h2 : qp = qp2) (h3 : qd = qd2) :
    QGC.generate_and_sync qc qp qd = QGC.generate_and_sync qc2 qp2 qd2 ∧
    QMT.generate_and_sync qc qp qd = QMT.generate_and_sync qc2 qp2 qd2 := by
  subst h1; subst h2; subst h3
  exact ⟨rfl, rfl⟩

/-- Witness for C9 at concrete equal stub streams. -/
theorem c9_deterministic_replay_witness :
    QGC.generate_and_sync [0] [0] [0] = QGC.generate_and_sync [0] [0] [0] ∧
    QMT.generate_and_sync [0] [0] [0] = QMT.generate_and_sync [0] [0] [0] :=
  c9_deterministic_replay [0] [0] [0] [0] [0] [0] rfl rfl rfl

namespace QG

/-- `CHORDS` from `qumusic_generate.py` (lines 11-16): four chords. -/
def CHORDS : List (List ℤ) :=
  [[60, 64, 67], [55, 59, 62], [57, 60, 64], [53, 57, 60]]

/-- `NOTES_PER_CHORD = 4` (line 17). -/
def NOTES_PER_CHORD : ℕ := 4

/-- The inner `for _ in range(NOTES_PER_CHORD)` loop of `generate_melody`
(lines 93-105): each iteration reads one index from the pre-generated
`quantum_randomness` stream `qr` at cursor `q`, selects the pitch from the
extended chord, and appends `(pitch, float(current_time), 1.0, 100)`;
`current_time` and the cursor advance by one. -/
def melodyBar (ext : List ℤ) (qr : List ℕ) : ℕ → ℕ → ℕ → Option (List Note)
  | 0, _, _ => some []
  | n + 1, t, q =>
    match qr.get? q with
    | none => none
    | some note_index =>
      match ext.get? note_index with
      | none => none
      | some pitch =>
        match melodyBar ext qr n (t + 1) (q + 1) with
        | none => none
        | some notes => some (⟨pitch, (t : ℚ), 1, 100⟩ :: notes)

/-- The outer `for chord in CHORDS` loop of `generate_melody` (lines 91-105):
each chord is extended by its root raised an octave
(`extended_chord = chord + [chord[0] + 12]`). -/
def melodyChords (qr : List ℕ) : List (List ℤ) → ℕ → ℕ → Option (List Note)
  | [], _, _ => some []
  | c :: rest, t, q =>
    match c.get? 0 with
    | none => none
    | some root =>
      match melodyBar (c ++ [root + 12]) qr NOTES_PER_CHORD t q with
      | none => none
      | some notes =>
        match melodyChords qr rest (t + NOTES_PER_CHORD) (q + NOTES_PER_CHORD) with
        | none => none
        | some notes2 => some (notes ++ notes2)

/-- The note-generation core of `generate_melody` from `qumusic_generate.py`
(lines 77-105), as a function of the pre-generated random index stream
(`quantum_randomness`, values in `[0, 4)` from the 2-qubit circuit).  Returns
the `notes_for_osc` list. -/
def generate_melody (qr : List ℕ) : Option (List Note) :=
  melodyChords qr CHORDS 0 0

theorem melodyBar_spec (ext : List ℤ) (qr : List ℕ)
    (hp : ∀ x : ℕ, x ∈ qr → x < ext.length) :
    ∀ (n t q : ℕ), q + n ≤ qr.length →
      ∃ notes, melodyBar ext qr n t q = some notes ∧ notes.length = n ∧
        ∀ i : ℕ, i < n → ∃ nt, notes.get? i = some nt ∧
          nt.start = ((t + i : ℕ) : ℚ) ∧ nt.duration = 1 ∧ nt.velocity = 100 ∧
          nt.pitch ∈ ext := by
  intro n
  induction n with
  | zero => intro t q _; exact ⟨[], rfl, rfl, by omega⟩
  | succ n ih =>
    intro t q h
    have hq : q < qr.length := by omega
    obtain ⟨ni, hni⟩ : ∃ ni, qr.get? q = some ni := ⟨_, List.get?_eq_get hq⟩
    have hniE : ni < ext.length := hp ni (List.get?_mem hni)
    obtain ⟨p, hpit⟩ : ∃ p, ext.get? ni = some p := ⟨_, List.get?_eq_get hniE⟩
    obtain ⟨notes, hrec, hlen, hchar⟩ := ih (t + 1) (q + 1) (by omega)
    refine ⟨⟨p, (t : ℚ), 1, 100⟩ :: notes, ?_, by simp [hlen], ?_⟩
    · simp only [melodyBar, hni, hpit, hrec]
    · intro i hi
      match i with
      | 0 =>
        refine ⟨_, rfl, ?_, rfl, rfl, List.get?_mem hpit⟩
        norm_num
      | j + 1 =>
        obtain ⟨nt, hg, hs, hd, hv, hpm⟩ := hchar j (by omega)
        refine ⟨nt, hg, ?_, hd, hv, hpm⟩
        rw [hs, Nat.cast_inj]
        omega

theorem melodyChords_spec (qr : List ℕ) (hp : ∀ x : ℕ, x ∈ qr → x < 4) :
    ∀ (chords : List (List ℤ)) (t q : ℕ),
      (∀ c ∈ chords, c.length = 3) →
      q + NOTES_PER_CHORD * chords.length ≤ qr.length →
      ∃ notes, melodyChords qr chords t q = some notes ∧
        notes.length = NOTES_PER_CHORD * chords.length ∧
        ∀ i : ℕ, i < notes.length → ∃ nt c r, notes.get? i = some nt ∧
          chords.get? (i / NOTES_PER_CHORD) = some c ∧ c.get? 0 = some r ∧
          nt.start = ((t + i : ℕ) : ℚ) ∧ nt.duration = 1 ∧ nt.velocity = 100 ∧
          nt.pitch ∈ c ++ [r + 12] := by
  have hN : NOTES_PER_CHORD = 4 := rfl
  intro chords
  induction chords with
  | nil =>
    intro t q _ _
    exact ⟨[], rfl, by simp, by simp⟩
  | cons c rest ih =>
    intro t q hc3 hq
    have hc : c.length = 3 := hc3 c (List.mem_cons_self c rest)
    have h0 : 0 < c.length := by omega
    obtain ⟨root, hroot⟩ : ∃ root, c.get? 0 = some root := ⟨_, List.get?_eq_get h0⟩
    have hext : (c ++ [root + 12]).length = 4 := by simp [hc]
    obtain ⟨notes, hbar, hlen1, hchar1⟩ :=
      melodyBar_spec (c ++ [root + 12]) qr (fun x hx => by rw [hext]; exact hp x hx)
        NOTES_PER_CHORD t q (by simp only [List.length_cons, hN] at hq ⊢; omega)
    obtain ⟨notes2, hrest, hlen2, hchar2⟩ :=
      ih (t + NOTES_PER_CHORD) (q + NOTES_PER_CHORD)
        (fun c2 h2 => hc3 c2 (List.mem_cons_of_mem c h2))
        (by simp only [List.length_cons, hN] at hq ⊢; omega)
    refine ⟨notes ++ notes2, ?_, ?_, ?_⟩
    · simp only [melodyChords, hroot, hbar, hrest]
    · simp only [List.length_append, hlen1, hlen2, List.length_cons]
      ring
    · intro i hi
      simp only [List.length_append] at hi
      by_cases hi1 : i < notes.length
      · obtain ⟨nt, hg, hs, hd, hv, hpm⟩ := hchar1 i (by omega)
        have hdiv : i / NOTES_PER_CHORD = 0 := Nat.div_eq_of_lt (by omega)
        exact ⟨nt, c, root, by rw [List.get?_append hi1]; exact hg,
          by rw [hdiv]; rfl, hroot, hs, hd, hv, hpm⟩
      · push_neg at hi1
        have hlen14 : notes.length = 4 := by rw [hlen1]; rfl
        obtain ⟨nt, c2, r2, hg, hcg, hrg, hs, hd, hv, hpm⟩ :=
          hchar2 (i - notes.length) (by omega)
        have hdiv : i / NOTES_PER_CHORD = (i - notes.length) / NOTES_PER_CHORD + 1 := by
          rw [hN, hlen14]
          omega
        refine ⟨nt, c2, r2, by rw [List.get?_append_right hi1]; exact hg, ?_, hrg, ?_,
          hd, hv, hpm⟩
        · rw [hdiv, List.get?_cons_succ]
          exact hcg
        · rw [hs, Nat.cast_inj]
          omega

/-- C5: in fixed-count mode (`generate_melody`: 4 chords, 4 notes per chord,
duration 1 each), for every in-range index stream of length 16 the run emits
exactly 16 note events with start times `0, 1, ..., 15`, all durations 1.0,
all velocities 100, and every pitch drawn from the bar's extended chord
(triad plus root + 12); hence each bar has exactly `NOTES_PER_CHORD` notes
whose durations sum to the 4-beat bar. -/
theorem c5_fixed_count_melody (qr : List ℕ) (hlen : qr.length = 16)
    (hr : ∀ x : ℕ, x ∈ qr → x < 4) :
    ∃ notes, generate_melody qr = some notes ∧ notes.length = 16 ∧
      ∀ i : ℕ, i < 16 → ∃ nt c r, notes.get? i = some nt ∧
        CHORDS.get? (i / NOTES_PER_CHORD) = some c ∧ c.get? 0 = some r ∧
        nt.start = (i : ℚ) ∧ nt.duration = 1 ∧ nt.velocity = 100 ∧
        nt.pitch ∈ c ++ [r + 12] := by
  obtain ⟨notes, hrun, hlen2, hchar⟩ :=
    melodyChords_spec qr hr CHORDS 0 0 (by decide) (by rw [hlen]; decide)
  have h16 : NOTES_PER_CHORD * CHORDS.length = 16 := rfl
  refine ⟨notes, hrun, by rw [hlen2, h16], ?_⟩
  intro i hi
  obtain ⟨nt, c, r, hg, hcg, hrg, hs, hd, hv, hpm⟩ := hchar i (by omega)
  refine ⟨nt, c, r, hg, hcg, hrg, ?_, hd, hv, hpm⟩
  rw [hs, Nat.cast_inj]
  omega

/-- Witness for C5 at the constant-zero index stream. -/
theorem c5_fixed_count_melody_witness :
    (List.replicate 16 (0 : ℕ)).length = 16 ∧
    ∃ notes, generate_melody (List.replicate 16 0) = some notes ∧ notes.length = 16 ∧
      ∀ i : ℕ, i < 16 → ∃ nt c r, notes.get? i = some nt ∧
        CHORDS.get? (i / NOTES_PER_CHORD) = some c ∧ c.get? 0 = some r ∧
        nt.start = (i : ℚ) ∧ nt.duration = 1 ∧ nt.velocity = 100 ∧
        nt.pitch ∈ c ++ [r + 12] :=
  ⟨by decide, c5_fixed_count_melody (List.replicate 16 0) (by decide) (by decide)⟩

end QG

/-- One OSC argument as sent by `SimpleUDPClient.send_message`. -/
inductive OSCArg
  | int (n : ℤ)
  | rat (q : ℚ)
  | bool (b : Bool)
deriving DecidableEq

namespace QG

/-- The messages sent by `AbletonOSCClient.add_notes` of
`qumusic_generate.py` (lines 37-50): one `/live/clip/delete/notes` clear
first, then one `/live/clip/add/notes` per note with mute flag `0`. -/
def addNotesMessages (track clip : ℤ) (notes : List Note) :
    List (String × List OSCArg) :=
  ("/live/clip/delete/notes", [OSCArg.int track, OSCArg.int clip]) ::
    notes.map (fun nt => ("/live/clip/add/notes",
      [OSCArg.int track, OSCArg.int clip, OSCArg.int nt.pitch, OSCArg.rat nt.start,
        OSCArg.rat nt.duration, OSCArg.int (nt.velocity : ℤ), OSCArg.int 0]))

end QG

namespace QGC

/-- The messages sent by `AbletonOSCClient.add_notes` of
`qumusic_generate_chords.py` (lines 36-44): exactly one
`/live/clip/add/notes` per note, mute flag `False`, no clear. -/
def addNotesMessages (track clip : ℤ) (notes : List Note) :
    List (String × List OSCArg) :=
  notes.map (fun nt => ("/live/clip/add/notes",
    [OSCArg.int track, OSCArg.int clip, OSCArg.int nt.pitch, OSCArg.rat nt.start,
      OSCArg.rat nt.duration, OSCArg.int (nt.velocity : ℤ), OSCArg.bool false]))

end QGC

namespace QMT

/-- The messages sent by `AbletonOSCClient.add_notes` of
`qmusic_generate_chords_Multitrack.py` (lines 42-50): exactly one
`/live/clip/add/notes` per note, mute flag `False`, no clear. -/
def addNotesMessages (track clip : ℤ) (notes : List Note) :
    List (String × List OSCArg) :=
  notes.map (fun nt => ("/live/clip/add/notes",
    [OSCArg.int track, OSCArg.int clip, OSCArg.int nt.pitch, OSCArg.rat nt.start,
      OSCArg.rat nt.duration, OSCArg.int (nt.velocity : ℤ), OSCArg.bool false]))

end QMT

/-- C8 counterexample: `add_notes` of `qumusic_generate.py` sends one message
(the note-clear) even for an empty note sequence — not zero messages. -/
theorem c8_empty_add_notes_cex :
    (QG.addNotesMessages 0 0 []).length = 1 := by
  rfl

/-- C8 (amended): for every track and clip index, `add_notes` with an empty
note sequence never fails, sends zero messages in the chords and Multitrack
variants, and sends exactly one message (the `/live/clip/delete/notes`
clear, no note messages) in the `qumusic_generate.py` variant. -/
theorem c8_empty_add_notes_messages (track clip : ℤ) :
    QGC.addNotesMessages track clip [] = [] ∧
    QMT.addNotesMessages track clip [] = [] ∧
    QG.addNotesMessages track clip []
      = [("/live/clip/delete/notes", [OSCArg.int track, OSCArg.int clip])] := by
  refine ⟨rfl, rfl, rfl⟩

end QMusic
